import Mathlib

/-!
Verification of the pickley install-state core against its specification.

The definitions below are a shallow embedding of the relevant parts of the
source code:

* `PingLock` embeds the staleness-tolerant work lock from
  `src/pickley/__init__.py` (class `PingLock`), over an explicit model of the
  work-folder filesystem state.
* `VersionMeta` embeds the version record class from `src/pickley/package.py`,
  keeping Python truthiness semantics for the loosely typed fields
  (`timestamp` may hold None, a number, or a junk string; `version` and the
  private problem field may hold None or a string).
* `Packager.cleanup`, `Packager.refresh_latest`, `Packager.refresh_desired`
  and `Packager.internal_install` embed the corresponding methods of
  `src/pickley/package.py`.  Ambient values read from the settings singleton
  and from collaborator modules that are outside the modelled core
  (resolved packager/delivery names, the pypi resolver response, the staleness
  window, the current time) are passed in as explicit parameters.
-/

namespace Pickley

/-- Model of a loosely typed Python field value (used for the timestamp
field, which the json layer can populate with anything). -/
inductive PyVal where
  | none
  | int (n : Int)
  | str (s : String)
deriving Repr, DecidableEq

/-- Python truthiness of a `PyVal`: None, 0 and the empty string are falsy. -/
def PyVal.truthy : PyVal → Bool
  | PyVal.none => false
  | PyVal.int n => n != 0
  | PyVal.str s => s != ""

/-- Python truthiness of an optional string (None and the empty string are
falsy). -/
def strTruthy : Option String → Bool
  | Option.none => false
  | Option.some s => s != ""

/-- Python str.startswith: is `p` a prefix of `s`?  Stated on the character
lists of the strings, which reduce definitionally (the byte-level
String.startsWith of the library does not). -/
def strStartsWith (s p : String) : Bool := p.data.isPrefixOf s.data

/-! ## PingLock (src/pickley/__init__.py) -/

/-- State of the `.work/` folder used by `PingLock`: the mtime of the `.ping`
marker when it exists, and the names of the other entries of the folder. -/
structure PingFolder where
  ping : Option Int
  other : List String
deriving Repr, DecidableEq

/-- Embeds class `PingLock`: target folder and the validity window of the
`.ping` marker, in seconds. -/
structure PingLock where
  folder : String
  seconds : Int
deriving Repr, DecidableEq

/-- Path of the `.ping` marker file (`os.path.join(self.folder, ".ping")`). -/
def PingLock.ping (l : PingLock) : String := l.folder ++ "/.ping"

/-- Embeds `PingLock.__init__`/`PingLockException`: the exception carries the
path of the `.ping` marker. -/
structure PingLockException where
  ping_path : String
deriving Repr, DecidableEq

/-- Embeds `PingLock.is_young` (with the default `seconds=None`, so
`self.seconds` is used): the `.ping` file exists and its mtime is at or after
`time.time() - seconds`.  The folder state is `Option PingFolder` (the folder
itself may be absent, in which case no `.ping` exists). -/
def PingLock.is_young (l : PingLock) (st : Option PingFolder) (now : Int) : Bool :=
  match st with
  | Option.none => false
  | Option.some f =>
    match f.ping with
    | Option.none => false
    | Option.some mtime => decide (now - l.seconds ≤ mtime)

/-- Embeds `PingLock.__enter__`: raise `PingLockException(self.ping)` when the
marker is young, otherwise delete the whole work folder and touch the marker
(`system.touch` creates the folder and the file, with mtime `now`). -/
def PingLock.enter (l : PingLock) (st : Option PingFolder) (now : Int) :
    Except PingLockException (Option PingFolder) :=
  if l.is_young st now then Except.error ⟨l.ping⟩
  else Except.ok (Option.some { ping := Option.some now, other := [] })

/-- Embeds `PingLock.__exit__`: delete the whole folder, marker included,
whatever the state was. -/
def PingLock.onExit (_l : PingLock) (_st : Option PingFolder) : Option PingFolder :=
  Option.none

/-! ## VersionMeta (src/pickley/package.py) -/

/-- Embeds class `VersionMeta`: the json-stored fields plus the private
problem field (`_problem`, never serialized).  Defaults mirror the class
attributes. -/
structure VersionMeta where
  version : Option String := Option.some ""
  channel : String := ""
  source : String := ""
  packager : Option String := Option.some ""
  delivery : Option String := Option.some ""
  python : String := ""
  pickley : String := ""
  timestamp : PyVal := PyVal.none
  problem : Option String := Option.none
deriving Repr, DecidableEq

/-- Embeds property `VersionMeta.valid`: `bool(self.version) and not
self._problem`. -/
def VersionMeta.valid (m : VersionMeta) : Bool :=
  strTruthy m.version && !(strTruthy m.problem)

/-- Embeds `VersionMeta.equivalent`: compares `version`, `packager` and
`delivery`; a None argument is never equivalent. -/
def VersionMeta.equivalent (m : VersionMeta) (other : Option VersionMeta) : Bool :=
  match other with
  | Option.none => false
  | Option.some o =>
    if m.version ≠ o.version then false
    else if m.packager ≠ o.packager then false
    else if m.delivery ≠ o.delivery then false
    else true

/-- Embeds `VersionMeta.invalidate`: record the problem and blank the
version. -/
def VersionMeta.invalidate (m : VersionMeta) (problem : String) : VersionMeta :=
  { m with problem := Option.some problem, version := Option.some "" }

/-- Embeds property `VersionMeta.still_valid`: an invalid record, or one with
a falsy timestamp, just returns `valid`; a numeric timestamp is compared to
the staleness window; a junk (string) timestamp makes the subtraction raise
`TypeError`, which the source catches and turns into False.  `now` stands for
`int(time.time())` and `window` for `system.SETTINGS.version_check_seconds`. -/
def VersionMeta.still_valid (m : VersionMeta) (now window : Int) : Bool :=
  if !m.valid || !m.timestamp.truthy then m.valid
  else
    match m.timestamp with
    | PyVal.int t => decide (now - t < window)
    | _ => false

/-- The apostrophe character (used to build the resolver error marker without
an apostrophe-bearing literal). -/
def apoChar : Char := Char.ofNat 39

/-- The marker that starts every resolver error message
(`version.startswith("can<apo>t")` in `refresh_latest`). -/
def cantString : String := String.mk ['c', 'a', 'n', apoChar, 't']

/-- Python `a or b` for an optional string: the string when truthy, else the
default. -/
def orDefault (v : Option String) (d : String) : String :=
  match v with
  | Option.none => d
  | Option.some s => if s ≠ "" then s else d

/-- The name of the latest channel. Modelled from the spec: the constant
`system.LATEST_CHANNEL` lives in the `pickley.system` module, which is not
among the repository files; the spec calls it the "latest" channel and the
in-repo `pickley/__init__.py` records `latest_channel = "latest"`. -/
def latestChannel : String := "latest"

/-- Ambient values that `VersionMeta._update_dynamic_fields` reads from the
settings singleton and the packager/delivery registries (all outside the
modelled core): the resolved packager and delivery names, the target python
text, the pickley version, and the current epoch time. -/
structure DynContext where
  resolvedPackager : Option String
  resolvedDelivery : Option String
  pythonText : String
  pickleyVersion : String
  now : Int
deriving Repr, DecidableEq

/-- Embeds `VersionMeta._update_dynamic_fields`: for a record whose suffix is
not the latest channel, refresh packager/delivery/python; always record the
pickley version and the current timestamp. -/
def VersionMeta.update_dynamic_fields (m : VersionMeta) (isLatestSuffix : Bool)
    (ctx : DynContext) : VersionMeta :=
  let m' := if isLatestSuffix then m
            else { m with packager := ctx.resolvedPackager,
                          delivery := ctx.resolvedDelivery,
                          python := ctx.pythonText }
  { m' with pickley := ctx.pickleyVersion, timestamp := PyVal.int ctx.now }

/-- Embeds `VersionMeta.set_version`. -/
def VersionMeta.set_version (m : VersionMeta) (version : Option String)
    (channel source : String) (isLatestSuffix : Bool) (ctx : DynContext) : VersionMeta :=
  VersionMeta.update_dynamic_fields
    { m with version := version, channel := channel, source := source } isLatestSuffix ctx

/-- Embeds `VersionMeta.set_from`. -/
def VersionMeta.set_from (m other : VersionMeta) (isLatestSuffix : Bool)
    (ctx : DynContext) : VersionMeta :=
  VersionMeta.update_dynamic_fields
    { m with problem := other.problem, version := other.version,
             channel := other.channel, source := other.source } isLatestSuffix ctx

/-! ## Packager refresh methods (src/pickley/package.py) -/

namespace Packager

/-- Embeds `Packager.refresh_current` on the loaded record: invalidate with
"is not installed" when the loaded record is not valid. -/
def refresh_current (loaded : VersionMeta) : VersionMeta :=
  if loaded.valid then loaded else loaded.invalidate "is not installed"

/-- What `Packager.refresh_latest` leaves behind: the in-memory `latest`
record, whether the pypi resolver was queried, and whether the record was
persisted. -/
structure RefreshLatestOutcome where
  record : VersionMeta
  queried : Bool
  saved : Bool
deriving Repr, DecidableEq

/-- Embeds `Packager.refresh_latest`.  `loaded` is the record as loaded from
the json file (the private problem field is never serialized, so a loaded
record carries no problem), `resolver` the response of
`latest_pypi_version(index, name)` (a version string, an error string that
starts with the can-t marker, or None), `index` the configured index and
`window` the staleness window `version_check_seconds`. -/
def refresh_latest (loaded : VersionMeta) (force : Bool)
    (resolver index : Option String) (ctx : DynContext) (window : Int) :
    RefreshLatestOutcome :=
  if !force && loaded.still_valid ctx.now window then
    { record := loaded, queried := false, saved := false }
  else
    let source := orDefault index "pypi"
    let rec₁ := loaded.set_version resolver latestChannel source true ctx
    if strTruthy resolver && !(strStartsWith (resolver.getD "") cantString) then
      { record := rec₁, queried := true, saved := true }
    else
      { record := rec₁.invalidate
          (orDefault resolver (cantString ++ " determine latest version from " ++ source)),
        queried := true, saved := false }

/-- What `Packager.refresh_desired` leaves behind: the desired record and,
when the latest channel was consulted, the outcome of `refresh_latest`. -/
structure RefreshDesiredOutcome where
  desired : VersionMeta
  latest : Option RefreshLatestOutcome
deriving Repr, DecidableEq

/-- Embeds `Packager.refresh_desired`.  `channelValue` is the resolved channel
definition for the package, `pinnedValue` the value of the configured
`channel.<channel>.<name>` definition when present (None when the definition
is absent; Python also treats a falsy value as absent), `pinnedSource` its
provenance text `str(v)`. -/
def refresh_desired (desired0 : VersionMeta) (channelValue : String)
    (pinnedValue : Option String) (pinnedSource : String)
    (loadedLatest : VersionMeta) (force : Bool) (resolver index : Option String)
    (ctx : DynContext) (window : Int) : RefreshDesiredOutcome :=
  if strTruthy pinnedValue then
    { desired := desired0.set_version pinnedValue channelValue pinnedSource false ctx,
      latest := Option.none }
  else if channelValue = latestChannel then
    let out := refresh_latest loadedLatest force resolver index ctx window
    { desired := desired0.set_from out.record false ctx, latest := Option.some out }
  else
    { desired := desired0.invalidate (cantString ++ " determine " ++ channelValue ++ " version"),
      latest := Option.none }

end Packager

/-! ## internal_install (src/pickley/package.py) -/

/-- The observable steps of `Packager.internal_install` (inside the package
install lock, whose acquisition lives in the `pickley.lock` module outside the
modelled core). -/
inductive InstallStep where
  | abortCantInstall
  | reportAlreadyInstalled
  | cleanup
  | setupAuditLog
  | effectiveInstall
  | saveRemovedEntryPoints
  | deleteRemovedTarget (name : String)
  | saveCurrent
  | reportInstalled
deriving Repr, DecidableEq

/-- Insert a string into an ascending list (helper for Python `sorted`). -/
def insertSortedStr (s : String) : List String → List String
  | [] => [s]
  | t :: ts => if s ≤ t then s :: t :: ts else t :: insertSortedStr s ts

/-- Python `sorted` on a list of strings. -/
def sortStrings (l : List String) : List String := l.foldr insertSortedStr []

/-- Embeds the body of `Packager.internal_install` after `refresh_desired`:
`desired` is the refreshed desired record, `loadedCurrent` the current record
as loaded from disk, `resolvedDelivery` the result of
`DELIVERERS.resolved_name(self.name, default=self.current.delivery)`,
`prevEP`/`newEP` the entry-point names before and after the effective install
(keys of a dict, hence without duplicates), `oldRemoved` the persisted
removed-entry-points record. -/
def Packager.internal_install (force : Bool) (desired loadedCurrent : VersionMeta)
    (resolvedDelivery : Option String)
    (prevEP newEP oldRemoved : List String) : List InstallStep :=
  if !desired.valid then [InstallStep.abortCantInstall]
  else
    let current := Packager.refresh_current loadedCurrent
    let desired' := { desired with delivery := resolvedDelivery }
    if !force && current.equivalent (Option.some desired') then
      [InstallStep.reportAlreadyInstalled, InstallStep.cleanup]
    else
      let removedNew := prevEP.filter (fun n => !(newEP.contains n))
      let removed := if removedNew.isEmpty then removedNew
                     else sortStrings (removedNew ++ oldRemoved.filter (fun n => !(removedNew.contains n)))
      [InstallStep.setupAuditLog, InstallStep.effectiveInstall]
        ++ (if removedNew.isEmpty then [] else [InstallStep.saveRemovedEntryPoints])
        ++ removed.map InstallStep.deleteRemovedTarget
        ++ [InstallStep.cleanup, InstallStep.saveCurrent, InstallStep.reportInstalled]

/-! ## Retention cleanup (src/pickley/package.py) -/

/-- One iteration of the `find_prefix` loop: keep the longer of the current
candidate and the next registered name, when the latter is truthy and a
prefix of the text (the None key is falsy and never matches). -/
def fpStep (text : String) (candidate : Option String) (k : Option String) : Option String :=
  match k with
  | Option.none => candidate
  | Option.some n =>
    if n ≠ "" ∧ strStartsWith text n then
      match candidate with
      | Option.none => Option.some n
      | Option.some c => if c.length < n.length then Option.some n else candidate
    else candidate

/-- Embeds `find_prefix`: the longest truthy name among the registered keys
that is a literal string-prefix of the text (two distinct candidates can
never have equal length, both being prefixes of the same text, so the scan
order never matters). -/
def longestMatchingName (keys : List (Option String)) (text : String) : Option String :=
  if text = "" ∨ keys = [] then Option.none
  else keys.foldl (fpStep text) Option.none

/-- Insert a key into the Python-dict key list (a key already present keeps
its first position). -/
def insertKey (ks : List (Option String)) (k : Option String) : List (Option String) :=
  if k ∈ ks then ks else ks ++ [k]

/-- Inputs of `Packager.cleanup`: the package name, the current entry-point
names, the persisted removed-entry-points record, the storage folder entries
as (filename, mtime) pairs in listdir order, and the age cutoff
`time.time() - install_timeout * 60`. -/
structure CleanupInput where
  pkgName : String
  entryPoints : List String
  removedEntryPoints : List String
  entries : List (String × Int)
  cutoff : Int
deriving Repr, DecidableEq

/-- The bucket keys of `cleanup`, in dict insertion order: the None key, the
package name, the entry-point names, then the removed names. -/
def cleanupKeys (inp : CleanupInput) : List (Option String) :=
  ((inp.entryPoints ++ inp.removedEntryPoints).map Option.some).foldl insertKey
    [Option.none, Option.some inp.pkgName]

/-- Python `target in removed_entry_points`: False for the None key, list
membership for a string key. -/
def keyInRemoved (removed : List String) (k : Option String) : Bool :=
  match k with
  | Option.none => false
  | Option.some s => removed.contains s

/-- Descending tuple order used by `sorted(cleanable, reverse=True)` on
(mtime, path) pairs: later mtime first, path as tie-break. -/
def tupleGe (a b : Int × String) : Bool :=
  decide (b.1 < a.1) || (decide (a.1 = b.1) && decide (b.2 ≤ a.2))

/-- Insert into a descending-sorted list. -/
def insertDesc (x : Int × String) : List (Int × String) → List (Int × String)
  | [] => [x]
  | y :: ys => if tupleGe x y then x :: y :: ys else y :: insertDesc x ys

/-- Embeds `sorted(cleanable, reverse=True)` (entries carry distinct
filenames, on which the tuple order is total). -/
def sortDesc : List (Int × String) → List (Int × String)
  | [] => []
  | x :: xs => insertDesc x (sortDesc xs)

/-- The (mtime, filename) pairs bucketed under key `k`: the non-hidden folder
entries whose longest matching registered name is `k`.  The membership check
`if target in prefixes` of the source is vacuous: None is itself a key of the
prefixes dict, so an entry that matches no registered name lands in the None
bucket. -/
def bucketEntries (keys : List (Option String)) (entries : List (String × Int))
    (k : Option String) : List (Int × String) :=
  (entries.filter
      (fun e => !(strStartsWith e.1 ".") && (longestMatchingName keys e.1 == k))).map
    (fun e => (e.2, e.1))

/-- The sorted buckets of `cleanup`, keyed in dict iteration order. -/
def Packager.sortedBuckets (inp : CleanupInput) :
    List (Option String × List (Int × String)) :=
  (cleanupKeys inp).map
    (fun k => (k, sortDesc (bucketEntries (cleanupKeys inp) inp.entries k)))

/-- One pass of the retention loop over a sorted bucket: the entries to
delete, and 1 when the bucket counts toward `rem_cleaned`. -/
def bucketOutcome (removed : List String) (cutoff : Int) (k : Option String) :
    List (Int × String) → List (Int × String) × Nat
  | [] => ([], if keyInRemoved removed k then 1 else 0)
  | top :: rest =>
    if !(keyInRemoved removed k) then
      if top.1 ≤ cutoff then (rest, 0)
      else ((top :: rest).drop 2, 0)
    else if top.1 ≤ cutoff then (top :: rest, 1)
    else (rest, 0)

/-- A removed-name bucket counts as reclaimed when it is empty or its newest
entry is at or before the cutoff. -/
def reclaimedB (cutoff : Int) : List (Int × String) → Bool
  | [] => true
  | top :: _ => decide (top.1 ≤ cutoff)

/-- Result of `Packager.cleanup`: the deletions per bucket key (in iteration
order) and whether the removed-entry-points record file is deleted
(`rem_cleaned >= len(removed_entry_points)`). -/
structure CleanupResult where
  perKey : List (Option String × List (Int × String))
  removedRecordDeleted : Bool
deriving Repr, DecidableEq

/-- Embeds `Packager.cleanup`. -/
def Packager.cleanup (inp : CleanupInput) : CleanupResult :=
  let outs := (Packager.sortedBuckets inp).map
    (fun p => (p.1, bucketOutcome inp.removedEntryPoints inp.cutoff p.1 p.2))
  { perKey := outs.map (fun p => (p.1, p.2.1)),
    removedRecordDeleted :=
      decide (inp.removedEntryPoints.length ≤ (outs.map (fun p => p.2.2)).sum) }

/-! ## Theorems: C1, C2 -/

/-- C1: PingLock context entry raises `PingLockException` carrying the `.ping`
marker path if and only if the `.ping` file under the work folder exists and
its modification time is within the validity window (`mtime ≥ now - seconds`);
otherwise entry deletes any pre-existing work folder wholesale, then creates
the folder and touches the marker; and context exit deletes the entire work
folder including the marker. -/
theorem pinglock_enter_exit_spec (l : PingLock) (st : Option PingFolder) (now : Int) :
    ((∃ e : PingLockException, l.enter st now = Except.error e ∧ e.ping_path = l.folder ++ "/.ping")
      ↔ (∃ f : PingFolder, ∃ m : Int,
            st = Option.some f ∧ f.ping = Option.some m ∧ now - l.seconds ≤ m))
    ∧ ((¬ ∃ f : PingFolder, ∃ m : Int,
            st = Option.some f ∧ f.ping = Option.some m ∧ now - l.seconds ≤ m) →
        l.enter st now = Except.ok (Option.some { ping := Option.some now, other := [] }))
    ∧ l.onExit st = Option.none := by
  have hyoung : l.is_young st now = true ↔
      (∃ f : PingFolder, ∃ m : Int,
        st = Option.some f ∧ f.ping = Option.some m ∧ now - l.seconds ≤ m) := by
    cases st with
    | none => simp [PingLock.is_young]
    | some f =>
      cases hp : f.ping with
      | none => simp [PingLock.is_young, hp]
      | some m => simp [PingLock.is_young, hp]
  refine ⟨?_, ?_, rfl⟩
  · constructor
    · rintro ⟨e, he, _⟩
      apply hyoung.mp
      by_contra hy
      have : l.enter st now = Except.ok (Option.some { ping := Option.some now, other := [] }) := by
        unfold PingLock.enter
        rw [Bool.eq_false_iff.mpr (fun h => hy h)]
        simp
      rw [this] at he
      exact Except.noConfusion he
    · intro hex
      have hy := hyoung.mpr hex
      refine ⟨⟨l.ping⟩, ?_, rfl⟩
      unfold PingLock.enter
      rw [hy]
      simp
  · intro hnex
    have hy : l.is_young st now = false := by
      cases hb : l.is_young st now
      · rfl
      · exact absurd (hyoung.mp hb) hnex
    unfold PingLock.enter
    rw [hy]
    simp

/-- C2: `equivalent` is symmetric, holds exactly when `version`, `packager`
and `delivery` all match, and is unchanged under any modification of
`channel`, `source` or `timestamp` on either record. -/
theorem equivalent_symm_fields_frame (a b : VersionMeta)
    (c₁ s₁ : String) (t₁ : PyVal) (c₂ s₂ : String) (t₂ : PyVal) :
    a.equivalent (Option.some b) = b.equivalent (Option.some a)
    ∧ (a.equivalent (Option.some b) = true ↔
        (a.version = b.version ∧ a.packager = b.packager ∧ a.delivery = b.delivery))
    ∧ (VersionMeta.equivalent { a with channel := c₁, source := s₁, timestamp := t₁ }
        (Option.some { b with channel := c₂, source := s₂, timestamp := t₂ })
        = a.equivalent (Option.some b)) := by
  have key : ∀ x y : VersionMeta, x.equivalent (Option.some y) = true ↔
      (x.version = y.version ∧ x.packager = y.packager ∧ x.delivery = y.delivery) := by
    intro x y
    unfold VersionMeta.equivalent
    by_cases h1 : x.version = y.version
    · by_cases h2 : x.packager = y.packager
      · by_cases h3 : x.delivery = y.delivery
        · simp [h1, h2, h3]
        · simp [h1, h2, h3]
      · simp [h1, h2]
    · simp [h1]
  refine ⟨?_, key a b, ?_⟩
  · by_cases hab : a.equivalent (Option.some b) = true
    · have h := (key a b).mp hab
      have h2 : b.equivalent (Option.some a) = true :=
        (key b a).mpr ⟨h.1.symm, h.2.1.symm, h.2.2.symm⟩
      rw [hab, h2]
    · have h2 : ¬ b.equivalent (Option.some a) = true := by
        intro h
        have h' := (key b a).mp h
        exact hab ((key a b).mpr ⟨h'.1.symm, h'.2.1.symm, h'.2.2.symm⟩)
      rw [Bool.eq_false_iff.mpr hab, Bool.eq_false_iff.mpr h2]
  · unfold VersionMeta.equivalent
    rfl

/-! ## Theorems: C3, C10 (still_valid) -/

/-- Input for the C3 counterexample: a valid record whose timestamp is the
concrete number 0. -/
def c3meta : VersionMeta := { version := Option.some "1.0", timestamp := PyVal.int 0 }

/-- C3 counterexample: with now = 100 and window = 50 the record is valid,
carries the concrete numeric timestamp 0, and now - timestamp = 100 ≥ 50, so
the claim demands still_valid = false; but the code treats the falsy
timestamp 0 as absent and returns true. -/
theorem still_valid_zero_timestamp_cex :
    c3meta.valid = true ∧ c3meta.timestamp = PyVal.int 0
    ∧ (50 : Int) ≤ 100 - 0 ∧ c3meta.still_valid 100 50 = true :=
  ⟨by decide, rfl, by decide, by decide⟩

/-- C3 (amended): for every valid record carrying a concrete NON-ZERO numeric
timestamp, still_valid holds exactly while now - timestamp < window; a valid
record with an absent timestamp is still valid, and a zero timestamp (falsy
in Python) is treated like an absent one; an invalid record is never still
valid. -/
theorem still_valid_window_spec (m : VersionMeta) (now window t : Int) :
    (m.valid = true → m.timestamp = PyVal.int t → t ≠ 0 →
        (m.still_valid now window = true ↔ now - t < window))
    ∧ (m.valid = true → m.timestamp = PyVal.none → m.still_valid now window = true)
    ∧ (m.valid = true → m.timestamp = PyVal.int 0 → m.still_valid now window = true)
    ∧ (m.valid = false → m.still_valid now window = false) := by
  refine ⟨?_, ?_, ?_, ?_⟩
  · intro hv ht hz
    have htr : (PyVal.int t).truthy = true := by
      simpa [PyVal.truthy] using hz
    simp [VersionMeta.still_valid, hv, htr, ht]
  · intro hv ht
    simp [VersionMeta.still_valid, hv, ht, PyVal.truthy]
  · intro hv ht
    simp [VersionMeta.still_valid, hv, ht, PyVal.truthy]
  · intro hv
    simp [VersionMeta.still_valid, hv]

/-- Input for the C10 counterexample: a valid record whose timestamp is the
empty string. -/
def c10meta : VersionMeta := { version := Option.some "1.0", timestamp := PyVal.str "" }

/-- C10 counterexample: the empty string is a non-numeric timestamp value, yet
still_valid evaluates to true (the falsy value is treated as an absent
timestamp), not to false as the claim demands. -/
theorem still_valid_empty_string_cex :
    c10meta.valid = true ∧ c10meta.timestamp = PyVal.str ""
    ∧ c10meta.still_valid 100 50 = true :=
  ⟨by decide, rfl, by decide⟩

/-- C10 (amended): for every valid record whose timestamp holds a truthy
non-numeric value (a non-empty string), still_valid evaluates to false
instead of raising an exception; a falsy non-numeric value such as the empty
string is instead treated as an absent timestamp. -/
theorem still_valid_nonnumeric_spec (m : VersionMeta) (now window : Int) (s : String)
    (hv : m.valid = true) (ht : m.timestamp = PyVal.str s) (hs : s ≠ "") :
    m.still_valid now window = false := by
  have htr : (PyVal.str s).truthy = true := by
    simpa [PyVal.truthy] using hs
  simp [VersionMeta.still_valid, hv, htr, ht]

/-- C10 witness: a valid record with the junk timestamp "foo" is not still
valid. -/
theorem still_valid_nonnumeric_witness :
    VersionMeta.still_valid
      { version := Option.some "1.0", timestamp := PyVal.str "foo" } 100 50 = false :=
  still_valid_nonnumeric_spec
    { version := Option.some "1.0", timestamp := PyVal.str "foo" } 100 50 "foo"
    (by decide) rfl (by decide)

/-! ## Theorems: C8 (refresh_latest) -/

/-- Ambient context for the C8 witness. -/
def c8ctx : DynContext :=
  { resolvedPackager := Option.some "venv", resolvedDelivery := Option.some "symlink",
    pythonText := "python", pickleyVersion := "9.9", now := 1000 }

/-- C8: refresh_latest returns the persisted latest record unchanged (no
query, no save) unless force is set or the record is no longer still valid;
otherwise it queries the resolver, the new record is valid exactly when the
resolver returned a concrete version string (truthy and not an error string),
the record is persisted exactly when valid, and a resolver response starting
with the can-t marker is treated as invalid rather than as a version. -/
theorem refresh_latest_spec (loaded : VersionMeta) (force : Bool)
    (resolver index : Option String) (ctx : DynContext) (window : Int)
    (hp : loaded.problem = Option.none) :
    (force = false → loaded.still_valid ctx.now window = true →
        Packager.refresh_latest loaded force resolver index ctx window
          = { record := loaded, queried := false, saved := false })
    ∧ ((force = true ∨ loaded.still_valid ctx.now window = false) →
        (Packager.refresh_latest loaded force resolver index ctx window).queried = true
        ∧ ((Packager.refresh_latest loaded force resolver index ctx window).record.valid = true
            ↔ strTruthy resolver = true
              ∧ strStartsWith (resolver.getD "") cantString = false)
        ∧ (Packager.refresh_latest loaded force resolver index ctx window).saved
            = (Packager.refresh_latest loaded force resolver index ctx window).record.valid
        ∧ (∀ s : String, resolver = Option.some s → strStartsWith s cantString = true →
            (Packager.refresh_latest loaded force resolver index ctx window).record.valid
              = false)) := by
  constructor
  · intro hf hsv
    unfold Packager.refresh_latest
    rw [hf, hsv]
    rfl
  · intro hcase
    have hcond : (!force && loaded.still_valid ctx.now window) = false := by
      rcases hcase with h | h
      · rw [h]; rfl
      · rw [h]; simp
    unfold Packager.refresh_latest
    rw [hcond]
    simp only [Bool.false_eq_true, if_false]
    by_cases hsave : (strTruthy resolver && !(strStartsWith (resolver.getD "") cantString)) = true
    · rw [if_pos hsave]
      have hver : (VersionMeta.set_version loaded resolver latestChannel
          (orDefault index "pypi") true ctx).version = resolver := rfl
      have hprob : (VersionMeta.set_version loaded resolver latestChannel
          (orDefault index "pypi") true ctx).problem = loaded.problem := rfl
      have hval : (VersionMeta.set_version loaded resolver latestChannel
          (orDefault index "pypi") true ctx).valid = true := by
        simp only [Bool.and_eq_true, Bool.not_eq_true'] at hsave
        unfold VersionMeta.valid
        rw [hver, hprob, hp, hsave.1]
        rfl
      refine ⟨rfl, ?_, ?_, ?_⟩
      · simp only [Bool.and_eq_true, Bool.not_eq_true'] at hsave
        simpa [hval] using hsave
      · simp [hval]
      · intro s hs hstart
        exfalso
        simp only [Bool.and_eq_true, Bool.not_eq_true'] at hsave
        rw [hs] at hsave
        simp only [Option.getD_some] at hsave
        rw [hstart] at hsave
        exact Bool.noConfusion hsave.2
    · rw [if_neg hsave]
      have hval : (VersionMeta.invalidate
          (VersionMeta.set_version loaded resolver latestChannel
            (orDefault index "pypi") true ctx)
          (orDefault resolver
            (cantString ++ " determine latest version from " ++ orDefault index "pypi"))).valid
          = false := by
        simp [VersionMeta.invalidate, VersionMeta.valid, strTruthy]
      refine ⟨rfl, ?_, ?_, ?_⟩
      · rw [hval]
        simp only [Bool.false_eq_true, false_iff]
        intro hcontra
        exact hsave (by rw [hcontra.1, hcontra.2]; rfl)
      · simp [hval]
      · intro s _ _
        exact hval

/-- C8 witness: a resolver error string is not persisted and leaves an
invalid record; instantiated with a forced refresh and an error response. -/
theorem refresh_latest_spec_witness :
    (Packager.refresh_latest {} true
        (Option.some (cantString ++ " determine latest version from x"))
        Option.none c8ctx 3600).saved
      = (Packager.refresh_latest {} true
        (Option.some (cantString ++ " determine latest version from x"))
        Option.none c8ctx 3600).record.valid :=
  ((refresh_latest_spec {} true
      (Option.some (cantString ++ " determine latest version from x"))
      Option.none c8ctx 3600 rfl).2 (Or.inl rfl)).2.2.1

/-! ## Helper lemmas for the cleanup theorems -/

/-- Membership after inserting a dict key. -/
theorem mem_insertKey {ks : List (Option String)} {k x : Option String} :
    x ∈ insertKey ks k ↔ x ∈ ks ∨ x = k := by
  unfold insertKey
  by_cases h : k ∈ ks
  · simp only [if_pos h]
    exact ⟨Or.inl, fun hx => hx.elim id (fun he => he ▸ h)⟩
  · simp [if_neg h]

/-- Inserting a dict key keeps the key list without duplicates. -/
theorem insertKey_nodup {ks : List (Option String)} {k : Option String}
    (h : ks.Nodup) : (insertKey ks k).Nodup := by
  unfold insertKey
  by_cases hk : k ∈ ks
  · simpa [if_pos hk] using h
  · rw [if_neg hk]
    simp [List.nodup_append, h, hk]

/-- Folding insertKey keeps the key list without duplicates. -/
theorem foldl_insertKey_nodup (l : List (Option String)) (init : List (Option String))
    (h : init.Nodup) : (l.foldl insertKey init).Nodup := by
  induction l generalizing init with
  | nil => exact h
  | cons a l ih => exact ih _ (insertKey_nodup h)

/-- Membership in a folded key list. -/
theorem mem_foldl_insertKey (l : List (Option String)) (init : List (Option String))
    (x : Option String) : x ∈ l.foldl insertKey init ↔ x ∈ init ∨ x ∈ l := by
  induction l generalizing init with
  | nil => simp
  | cons a l ih =>
    rw [List.foldl_cons, ih, mem_insertKey]
    simp only [List.mem_cons]
    tauto

/-- The cleanup key list has no duplicate keys. -/
theorem cleanupKeys_nodup (inp : CleanupInput) : (cleanupKeys inp).Nodup :=
  foldl_insertKey_nodup _ _ (by simp)

/-- The members of the cleanup key list. -/
theorem mem_cleanupKeys (inp : CleanupInput) (x : Option String) :
    x ∈ cleanupKeys inp ↔
      x = Option.none ∨ x = Option.some inp.pkgName
      ∨ x ∈ (inp.entryPoints ++ inp.removedEntryPoints).map Option.some := by
  unfold cleanupKeys
  rw [mem_foldl_insertKey]
  simp only [List.mem_cons, List.mem_singleton, List.not_mem_nil, or_false]
  tauto

/-- List.contains agrees with membership on string lists. -/
theorem contains_iff_mem (l : List String) (s : String) :
    l.contains s = true ↔ s ∈ l := by
  induction l with
  | nil => simp
  | cons a l ih =>
    simp only [List.contains_cons, Bool.or_eq_true, beq_iff_eq, List.mem_cons, ih]

/-- keyInRemoved on a string key is plain membership. -/
theorem keyInRemoved_some (removed : List String) (s : String) :
    keyInRemoved removed (Option.some s) = true ↔ s ∈ removed := by
  unfold keyInRemoved
  exact contains_iff_mem removed s

/-- Membership after a descending insert. -/
theorem mem_insertDesc {a x : Int × String} {l : List (Int × String)} :
    x ∈ insertDesc a l ↔ x = a ∨ x ∈ l := by
  induction l with
  | nil => simp [insertDesc]
  | cons y ys ih =>
    unfold insertDesc
    by_cases h : tupleGe a y = true
    · simp only [if_pos h, List.mem_cons]
    · simp only [if_neg h, List.mem_cons, ih]
      tauto

/-- The descending sort keeps the same members. -/
theorem mem_sortDesc {x : Int × String} {l : List (Int × String)} :
    x ∈ sortDesc l ↔ x ∈ l := by
  induction l with
  | nil => simp [sortDesc]
  | cons a l ih => simp [sortDesc, mem_insertDesc, ih]

/-- The descending tuple order implies mtime order. -/
theorem tupleGe_le {a b : Int × String} (h : tupleGe a b = true) : b.1 ≤ a.1 := by
  unfold tupleGe at h
  simp only [Bool.or_eq_true, Bool.and_eq_true, decide_eq_true_eq] at h
  rcases h with h1 | ⟨h2, _⟩
  · omega
  · omega

/-- Failing the descending tuple order implies the reverse mtime order. -/
theorem not_tupleGe_le {a b : Int × String} (h : tupleGe a b = false) : a.1 ≤ b.1 := by
  unfold tupleGe at h
  cases hd : decide (b.1 < a.1) with
  | false =>
    have := of_decide_eq_false hd
    omega
  | true =>
    rw [hd] at h
    simp at h

/-- A descending insert keeps the head-is-newest property. -/
theorem insertDesc_head_max (a : Int × String) (l : List (Int × String))
    (hl : ∀ top rest, l = top :: rest → ∀ x ∈ l, x.1 ≤ top.1) :
    ∀ top rest, insertDesc a l = top :: rest → ∀ x ∈ insertDesc a l, x.1 ≤ top.1 := by
  cases l with
  | nil =>
    intro top rest h x hx
    simp only [insertDesc] at h hx
    injection h with h1 _
    subst h1
    simp only [List.mem_singleton] at hx
    subst hx
    exact le_refl _
  | cons y ys =>
    intro top rest h x hx
    unfold insertDesc at h hx
    by_cases hge : tupleGe a y = true
    · rw [if_pos hge] at h hx
      injection h with h1 _
      subst h1
      rcases List.mem_cons.mp hx with rfl | hx2
      · exact le_refl _
      rcases List.mem_cons.mp hx2 with rfl | hx3
      · exact tupleGe_le hge
      · exact le_trans (hl y ys rfl x (List.mem_cons_of_mem _ hx3)) (tupleGe_le hge)
    · rw [if_neg hge] at h hx
      injection h with h1 _
      subst h1
      rcases List.mem_cons.mp hx with rfl | hx2
      · exact le_refl _
      rcases mem_insertDesc.mp hx2 with rfl | hx3
      · exact not_tupleGe_le (Bool.eq_false_iff.mpr hge)
      · exact hl y ys rfl x (List.mem_cons_of_mem _ hx3)

/-- The head of a descending-sorted list carries the maximal mtime. -/
theorem sortDesc_head_max (l : List (Int × String)) :
    ∀ top rest, sortDesc l = top :: rest → ∀ x ∈ sortDesc l, x.1 ≤ top.1 := by
  induction l with
  | nil =>
    intro top rest h
    simp [sortDesc] at h
  | cons a l ih => exact insertDesc_head_max a (sortDesc l) ih

/-- Membership in the sorted buckets: the key is a registered key and the
bucket is the sorted bucket of that key. -/
theorem sortedBuckets_mem (inp : CleanupInput) (k : Option String)
    (b : List (Int × String)) :
    (k, b) ∈ Packager.sortedBuckets inp ↔
      k ∈ cleanupKeys inp
      ∧ b = sortDesc (bucketEntries (cleanupKeys inp) inp.entries k) := by
  unfold Packager.sortedBuckets
  constructor
  · intro h
    rcases List.mem_map.mp h with ⟨k', hk', heq⟩
    have h1 : k' = k := congrArg Prod.fst heq
    subst h1
    exact ⟨hk', (congrArg Prod.snd heq).symm⟩
  · rintro ⟨hk, rfl⟩
    exact List.mem_map.mpr ⟨k, hk, rfl⟩

/-- Each sorted bucket contributes its retention deletions to the cleanup
result. -/
theorem cleanup_perKey_mem (inp : CleanupInput) (k : Option String)
    (b : List (Int × String)) (h : (k, b) ∈ Packager.sortedBuckets inp) :
    (k, (bucketOutcome inp.removedEntryPoints inp.cutoff k b).1)
      ∈ (Packager.cleanup inp).perKey := by
  unfold Packager.cleanup
  simp only [List.map_map]
  exact List.mem_map.mpr ⟨(k, b), h, rfl⟩

/-- The rem_cleaned contribution of one bucket as an indicator. -/
theorem bucketOutcome_snd (removed : List String) (cutoff : Int) (k : Option String)
    (b : List (Int × String)) :
    (bucketOutcome removed cutoff k b).2
      = if (keyInRemoved removed k && reclaimedB cutoff b) = true then 1 else 0 := by
  cases b with
  | nil => cases hk : keyInRemoved removed k <;> simp [bucketOutcome, reclaimedB, hk]
  | cons top rest =>
    cases hk : keyInRemoved removed k <;> by_cases hc : top.1 ≤ cutoff <;>
      simp [bucketOutcome, reclaimedB, hk, hc]

/-- A sum of 0/1 indicators is a countP. -/
theorem sum_map_ite_one {α : Type} (l : List α) (p : α → Bool) :
    (l.map (fun x => if p x then 1 else 0)).sum = l.countP p := by
  induction l with
  | nil => rfl
  | cons a l ih =>
    rw [List.map_cons, List.sum_cons, List.countP_cons, ih]
    cases hpa : p a
    · simp [hpa]
    · simp [hpa]
      omega

/-- Counting a conjunction never exceeds counting its first conjunct. -/
theorem countP_and_le {α : Type} (xs : List α) (f g : α → Bool) :
    xs.countP (fun x => f x && g x) ≤ xs.countP f := by
  induction xs with
  | cons a t ih =>
    rw [List.countP_cons, List.countP_cons]
    cases hfa : f a <;> cases hga : g a <;> simp [hfa, hga] <;> omega
  | nil => simp

/-- The count of a conjunction reaches the count of its first conjunct
exactly when the second conjunct holds wherever the first does. -/
theorem countP_conj_ge_iff {α : Type} (l : List α) (p q : α → Bool) :
    (l.countP p ≤ l.countP (fun x => p x && q x)) ↔
      ∀ x ∈ l, p x = true → q x = true := by
  induction l with
  | nil => simp
  | cons a l ih =>
    have hle := countP_and_le l p q
    rw [List.countP_cons, List.countP_cons]
    cases hpa : p a <;> cases hqa : q a <;>
      simp only [hpa, hqa, Bool.and_true, Bool.and_false, Bool.true_and, Bool.false_and,
        if_true, if_false, List.mem_cons, forall_eq_or_imp, Bool.false_eq_true,
        false_implies, true_and, true_implies, ← ih]
    · omega
    · omega
    · constructor
      · intro h
        exfalso
        omega
      · rintro ⟨h, _⟩
        cases h
    · omega

/-- With a duplicate-free removed list, the keys that are in the removed list
are counted exactly once each. -/
theorem countP_keys_removed (inp : CleanupInput)
    (hnd : inp.removedEntryPoints.Nodup) :
    (cleanupKeys inp).countP (keyInRemoved inp.removedEntryPoints)
      = inp.removedEntryPoints.length := by
  have hperm : List.Perm
      ((cleanupKeys inp).filter (keyInRemoved inp.removedEntryPoints))
      (inp.removedEntryPoints.map Option.some) := by
    apply (List.perm_ext_iff_of_nodup
      ((cleanupKeys_nodup inp).filter _)
      (hnd.map (Option.some_injective String))).mpr
    intro a
    rw [List.mem_filter, List.mem_map]
    constructor
    · rintro ⟨_, hp⟩
      cases a with
      | none => exact absurd hp (by simp [keyInRemoved])
      | some s => exact ⟨s, (keyInRemoved_some _ s).mp hp, rfl⟩
    · rintro ⟨s, hs, rfl⟩
      refine ⟨?_, (keyInRemoved_some _ s).mpr hs⟩
      rw [mem_cleanupKeys]
      right; right
      rw [List.mem_map]
      exact ⟨s, List.mem_append_right _ hs, rfl⟩
  rw [List.countP_eq_length_filter, hperm.length_eq, List.length_map]

/-- One find_prefix step only returns a truthy prefix of the text, taken from
the scanned key or the previous candidate. -/
theorem fpStep_good (text : String) (acc : Option String) (a : Option String)
    (hacc : ∀ c, acc = Option.some c → c ≠ "" ∧ strStartsWith text c = true) :
    ∀ c, fpStep text acc a = Option.some c →
      (c ≠ "" ∧ strStartsWith text c = true) ∧ (a = Option.some c ∨ acc = Option.some c) := by
  intro c hc
  cases a with
  | none =>
    simp only [fpStep] at hc
    exact ⟨hacc c hc, Or.inr hc⟩
  | some n =>
    by_cases hn : n ≠ "" ∧ strStartsWith text n = true
    · cases acc with
      | none =>
        simp only [fpStep] at hc
        rw [if_pos hn] at hc
        injection hc with h
        subst h
        exact ⟨hn, Or.inl rfl⟩
      | some c0 =>
        simp only [fpStep] at hc
        rw [if_pos hn] at hc
        by_cases hlen : c0.length < n.length
        · rw [if_pos hlen] at hc
          injection hc with h
          subst h
          exact ⟨hn, Or.inl rfl⟩
        · rw [if_neg hlen] at hc
          injection hc with h
          subst h
          exact ⟨hacc c0 rfl, Or.inr rfl⟩
    · simp only [fpStep] at hc
      rw [if_neg hn] at hc
      exact ⟨hacc c hc, Or.inr hc⟩

/-- One find_prefix step never shortens the candidate. -/
theorem fpStep_acc_mono (text : String) (c : String) (a : Option String) :
    ∃ d, fpStep text (Option.some c) a = Option.some d ∧ c.length ≤ d.length := by
  cases a with
  | none => exact ⟨c, rfl, le_refl _⟩
  | some n =>
    simp only [fpStep]
    by_cases hn : n ≠ "" ∧ strStartsWith text n = true
    · rw [if_pos hn]
      by_cases hlen : c.length < n.length
      · rw [if_pos hlen]
        exact ⟨n, rfl, le_of_lt hlen⟩
      · rw [if_neg hlen]
        exact ⟨c, rfl, le_refl _⟩
    · rw [if_neg hn]
      exact ⟨c, rfl, le_refl _⟩

/-- Scanning a truthy prefix name leaves a candidate at least as long. -/
theorem fpStep_new (text : String) (acc : Option String) (m : String)
    (hm : m ≠ "" ∧ strStartsWith text m = true) :
    ∃ d, fpStep text acc (Option.some m) = Option.some d ∧ m.length ≤ d.length := by
  cases acc with
  | none =>
    simp only [fpStep]
    rw [if_pos hm]
    exact ⟨m, rfl, le_refl _⟩
  | some c0 =>
    simp only [fpStep]
    rw [if_pos hm]
    by_cases hlen : c0.length < m.length
    · rw [if_pos hlen]
      exact ⟨m, rfl, le_refl _⟩
    · rw [if_neg hlen]
      exact ⟨c0, rfl, by omega⟩

/-- Invariant of the find_prefix fold: any result is a truthy prefix coming
from the scanned keys or the start candidate; any truthy prefix among the
keys forces a result at least as long; the candidate never shrinks. -/
theorem foldl_fpStep_spec (text : String) (l : List (Option String)) :
    ∀ acc : Option String,
      (∀ c, acc = Option.some c → c ≠ "" ∧ strStartsWith text c = true) →
      (∀ c, l.foldl (fpStep text) acc = Option.some c →
          (c ≠ "" ∧ strStartsWith text c = true) ∧ (Option.some c ∈ l ∨ acc = Option.some c))
      ∧ (∀ m, Option.some m ∈ l → m ≠ "" → strStartsWith text m = true →
          ∃ c, l.foldl (fpStep text) acc = Option.some c ∧ m.length ≤ c.length)
      ∧ (∀ c, acc = Option.some c →
          ∃ d, l.foldl (fpStep text) acc = Option.some d ∧ c.length ≤ d.length) := by
  induction l with
  | nil =>
    intro acc hacc
    refine ⟨?_, ?_, ?_⟩
    · intro c hc
      exact ⟨hacc c hc, Or.inr hc⟩
    · intro m hm
      cases hm
    · intro c hc
      exact ⟨c, hc, le_refl _⟩
  | cons a l ih =>
    intro acc hacc
    have hstepgood : ∀ c, fpStep text acc a = Option.some c →
        c ≠ "" ∧ strStartsWith text c = true :=
      fun c hc => (fpStep_good text acc a hacc c hc).1
    obtain ⟨ih1, ih2, ih3⟩ := ih (fpStep text acc a) hstepgood
    rw [List.foldl_cons]
    refine ⟨?_, ?_, ?_⟩
    · intro c hc
      obtain ⟨hg, horig⟩ := ih1 c hc
      refine ⟨hg, ?_⟩
      rcases horig with hmem | hstep
      · exact Or.inl (List.mem_cons_of_mem _ hmem)
      · rcases (fpStep_good text acc a hacc c hstep).2 with ha | hacc2
        · exact Or.inl (ha ▸ List.mem_cons_self _ _)
        · exact Or.inr hacc2
    · intro m hm hm1 hm2
      rcases List.mem_cons.mp hm with ha | hmem
      · obtain ⟨d, hd, hmd⟩ := fpStep_new text acc m ⟨hm1, hm2⟩
        rw [ha] at hd
        obtain ⟨e, he, hde⟩ := ih3 d hd
        exact ⟨e, he, le_trans hmd hde⟩
      · exact ih2 m hmem hm1 hm2
    · intro c hc
      have hmono := fpStep_acc_mono text c a
      rw [← hc] at hmono
      obtain ⟨d, hd, hcd⟩ := hmono
      obtain ⟨e, he, hde⟩ := ih3 d hd
      exact ⟨e, he, le_trans hcd hde⟩

/-- Characterization of find_prefix: a returned name is a registered truthy
prefix of the text of maximal length among the registered truthy prefixes; a
None result means no registered truthy name is a prefix of the text. -/
theorem longestMatchingName_spec (keys : List (Option String)) (text : String) :
    (∀ n, longestMatchingName keys text = Option.some n →
        Option.some n ∈ keys ∧ n ≠ "" ∧ strStartsWith text n = true
        ∧ ∀ m, Option.some m ∈ keys → m ≠ "" → strStartsWith text m = true →
            m.length ≤ n.length)
    ∧ (text ≠ "" → longestMatchingName keys text = Option.none →
        ∀ m, Option.some m ∈ keys → m ≠ "" → strStartsWith text m = true → False) := by
  unfold longestMatchingName
  by_cases h0 : text = "" ∨ keys = []
  · rw [if_pos h0]
    refine ⟨fun n hn => absurd hn (by simp), ?_⟩
    intro ht _ m hm hm1 _
    rcases h0 with h | h
    · exact ht h
    · rw [h] at hm
      cases hm
  · rw [if_neg h0]
    have hbase : ∀ c : String, (Option.none : Option String) = Option.some c →
        c ≠ "" ∧ strStartsWith text c = true := by
      intro c hc
      cases hc
    obtain ⟨h1, h2, _⟩ := foldl_fpStep_spec text keys Option.none hbase
    refine ⟨?_, ?_⟩
    · intro n hn
      obtain ⟨⟨hg1, hg2⟩, horig⟩ := h1 n hn
      rcases horig with hmem | habs
      · refine ⟨hmem, hg1, hg2, ?_⟩
        intro m hm hm1 hm2
        obtain ⟨c, hc, hmc⟩ := h2 m hm hm1 hm2
        rw [hn] at hc
        injection hc with h
        subst h
        exact hmc
      · cases habs
    · intro _ hnone m hm hm1 hm2
      obtain ⟨c, hc, _⟩ := h2 m hm hm1 hm2
      rw [hnone] at hc
      cases hc

/-! ## Theorems: C9 (refresh_desired) -/

/-- Field behavior of set_version: version, channel and source are the
arguments and the problem field is preserved. -/
theorem set_version_fields (m : VersionMeta) (v : Option String) (c s : String)
    (isl : Bool) (ctx : DynContext) :
    (m.set_version v c s isl ctx).version = v
    ∧ (m.set_version v c s isl ctx).channel = c
    ∧ (m.set_version v c s isl ctx).source = s
    ∧ (m.set_version v c s isl ctx).problem = m.problem := by
  unfold VersionMeta.set_version VersionMeta.update_dynamic_fields
  cases isl
  · exact ⟨rfl, rfl, rfl, rfl⟩
  · exact ⟨rfl, rfl, rfl, rfl⟩

/-- Field behavior of set_from: version, channel, source and problem are
copied from the other record. -/
theorem set_from_fields (m other : VersionMeta) (isl : Bool) (ctx : DynContext) :
    (m.set_from other isl ctx).version = other.version
    ∧ (m.set_from other isl ctx).channel = other.channel
    ∧ (m.set_from other isl ctx).source = other.source
    ∧ (m.set_from other isl ctx).problem = other.problem := by
  unfold VersionMeta.set_from VersionMeta.update_dynamic_fields
  cases isl
  · exact ⟨rfl, rfl, rfl, rfl⟩
  · exact ⟨rfl, rfl, rfl, rfl⟩

/-- A record is valid after set_version with a truthy version when its
problem field was unset. -/
theorem set_version_valid (m : VersionMeta) (v : Option String) (c s : String)
    (isl : Bool) (ctx : DynContext) (hp : m.problem = Option.none)
    (hv : strTruthy v = true) :
    (m.set_version v c s isl ctx).valid = true := by
  unfold VersionMeta.valid
  rw [(set_version_fields m v c s isl ctx).1, (set_version_fields m v c s isl ctx).2.2.2,
    hp, hv]
  rfl

/-- A record is never valid after invalidate. -/
theorem invalidate_not_valid (m : VersionMeta) (p : String) :
    (m.invalidate p).valid = false := by
  unfold VersionMeta.valid VersionMeta.invalidate
  rfl

/-- Ambient context for the C9 counterexample and witness. -/
def c9ctx : DynContext :=
  { resolvedPackager := Option.some "venv", resolvedDelivery := Option.some "symlink",
    pythonText := "python", pickleyVersion := "9.9", now := 1000 }

/-- C9 counterexample: with the configured channel "stable" and a pinned
version "1.0" for the exact package, the desired record is valid but its
channel field is the configured channel name "stable", not the literal
"pinned" that the claim demands. -/
theorem refresh_desired_pinned_channel_cex :
    (Packager.refresh_desired {} "stable" (Option.some "1.0") "cli" {} false
        Option.none Option.none c9ctx 3600).desired.channel = "stable"
    ∧ ("stable" : String) ≠ "pinned"
    ∧ (Packager.refresh_desired {} "stable" (Option.some "1.0") "cli" {} false
        Option.none Option.none c9ctx 3600).desired.valid = true :=
  ⟨by decide, by decide, by decide⟩

/-- C9 (amended): a configured pinned version for the exact package takes
absolute precedence, producing an always-valid desired record whose channel
field is the configured channel name (the code records no literal "pinned"
channel); when no pinned version exists and the configured channel is the
latest channel, desired mirrors refresh_latest (same version, channel, source
and problem); for any other channel with no pinned version, desired becomes
an invalid record whose diagnostic names that channel, and the resolver is
not consulted. -/
theorem refresh_desired_spec (desired0 : VersionMeta) (channelValue : String)
    (pinnedValue : Option String) (pinnedSource : String) (loadedLatest : VersionMeta)
    (force : Bool) (resolver index : Option String) (ctx : DynContext) (window : Int)
    (hp : desired0.problem = Option.none) :
    (strTruthy pinnedValue = true →
        (Packager.refresh_desired desired0 channelValue pinnedValue pinnedSource
            loadedLatest force resolver index ctx window).desired.version = pinnedValue
        ∧ (Packager.refresh_desired desired0 channelValue pinnedValue pinnedSource
            loadedLatest force resolver index ctx window).desired.channel = channelValue
        ∧ (Packager.refresh_desired desired0 channelValue pinnedValue pinnedSource
            loadedLatest force resolver index ctx window).desired.valid = true
        ∧ (Packager.refresh_desired desired0 channelValue pinnedValue pinnedSource
            loadedLatest force resolver index ctx window).latest = Option.none)
    ∧ (strTruthy pinnedValue = false → channelValue = latestChannel →
        (Packager.refresh_desired desired0 channelValue pinnedValue pinnedSource
            loadedLatest force resolver index ctx window).latest
          = Option.some (Packager.refresh_latest loadedLatest force resolver index ctx window)
        ∧ (Packager.refresh_desired desired0 channelValue pinnedValue pinnedSource
            loadedLatest force resolver index ctx window).desired.version
          = (Packager.refresh_latest loadedLatest force resolver index ctx window).record.version
        ∧ (Packager.refresh_desired desired0 channelValue pinnedValue pinnedSource
            loadedLatest force resolver index ctx window).desired.channel
          = (Packager.refresh_latest loadedLatest force resolver index ctx window).record.channel
        ∧ (Packager.refresh_desired desired0 channelValue pinnedValue pinnedSource
            loadedLatest force resolver index ctx window).desired.source
          = (Packager.refresh_latest loadedLatest force resolver index ctx window).record.source
        ∧ (Packager.refresh_desired desired0 channelValue pinnedValue pinnedSource
            loadedLatest force resolver index ctx window).desired.problem
          = (Packager.refresh_latest loadedLatest force resolver index ctx window).record.problem)
    ∧ (strTruthy pinnedValue = false → channelValue ≠ latestChannel →
        (Packager.refresh_desired desired0 channelValue pinnedValue pinnedSource
            loadedLatest force resolver index ctx window).desired.problem
          = Option.some (cantString ++ " determine " ++ channelValue ++ " version")
        ∧ (Packager.refresh_desired desired0 channelValue pinnedValue pinnedSource
            loadedLatest force resolver index ctx window).desired.valid = false
        ∧ (Packager.refresh_desired desired0 channelValue pinnedValue pinnedSource
            loadedLatest force resolver index ctx window).latest = Option.none) := by
  refine ⟨?_, ?_, ?_⟩
  · intro hpin
    unfold Packager.refresh_desired
    rw [hpin]
    simp only [if_true]
    exact ⟨(set_version_fields desired0 pinnedValue channelValue pinnedSource false ctx).1,
      (set_version_fields desired0 pinnedValue channelValue pinnedSource false ctx).2.1,
      set_version_valid desired0 pinnedValue channelValue pinnedSource false ctx hp hpin,
      trivial⟩
  · intro hpin hch
    unfold Packager.refresh_desired
    rw [hpin, hch]
    simp only [Bool.false_eq_true, if_false, if_pos rfl]
    exact ⟨rfl,
      (set_from_fields desired0 _ false ctx).1,
      (set_from_fields desired0 _ false ctx).2.1,
      (set_from_fields desired0 _ false ctx).2.2.1,
      (set_from_fields desired0 _ false ctx).2.2.2⟩
  · intro hpin hch
    unfold Packager.refresh_desired
    rw [hpin]
    simp only [Bool.false_eq_true, if_false, if_neg hch]
    exact ⟨rfl, invalidate_not_valid _ _, trivial⟩

/-- C9 witness: the pinned branch at a concrete input (channel "stable",
pinned version "1.0"). -/
theorem refresh_desired_spec_witness :
    (Packager.refresh_desired {} "stable" (Option.some "1.0") "cli" {} false
        Option.none Option.none c9ctx 3600).desired.valid = true :=
  ((refresh_desired_spec {} "stable" (Option.some "1.0") "cli" {} false
      Option.none Option.none c9ctx 3600 rfl).1 (by decide)).2.2.1

/-! ## Theorems: C4 (internal_install no-op path) -/

/-- C4: when install runs without force and the refreshed current record is
equivalent to the (delivery-updated) desired record, internal_install only
reports "already installed" and runs the retention cleanup; it does not
build, deliver or rewrite the current record. -/
theorem internal_install_noop (force : Bool) (desired loadedCurrent : VersionMeta)
    (resolvedDelivery : Option String) (prevEP newEP oldRemoved : List String)
    (hv : desired.valid = true) (hf : force = false)
    (heq : (Packager.refresh_current loadedCurrent).equivalent
        (Option.some { desired with delivery := resolvedDelivery }) = true) :
    Packager.internal_install force desired loadedCurrent resolvedDelivery
        prevEP newEP oldRemoved
      = [InstallStep.reportAlreadyInstalled, InstallStep.cleanup]
    ∧ InstallStep.cleanup ∈ Packager.internal_install force desired loadedCurrent
        resolvedDelivery prevEP newEP oldRemoved
    ∧ InstallStep.saveCurrent ∉ Packager.internal_install force desired loadedCurrent
        resolvedDelivery prevEP newEP oldRemoved
    ∧ InstallStep.effectiveInstall ∉ Packager.internal_install force desired loadedCurrent
        resolvedDelivery prevEP newEP oldRemoved := by
  have hmain : Packager.internal_install force desired loadedCurrent resolvedDelivery
      prevEP newEP oldRemoved
      = [InstallStep.reportAlreadyInstalled, InstallStep.cleanup] := by
    unfold Packager.internal_install
    simp only [hv, hf, heq, Bool.not_true, Bool.not_false, Bool.true_and,
      Bool.false_eq_true, if_false, if_true]
  refine ⟨hmain, ?_, ?_, ?_⟩ <;> rw [hmain] <;> simp

/-- Concrete current record for the C4 witness. -/
def c4current : VersionMeta :=
  { version := Option.some "1.0", packager := Option.some "venv",
    delivery := Option.some "symlink" }

/-- Concrete desired record for the C4 witness (same version and packager;
its delivery is updated to the resolved delivery before the equivalence
check). -/
def c4desired : VersionMeta :=
  { version := Option.some "1.0", packager := Option.some "venv",
    delivery := Option.some "wrap", channel := "stable" }

/-- C4 witness: the no-op path at a concrete input. -/
theorem internal_install_noop_witness :
    Packager.internal_install false c4desired c4current (Option.some "symlink")
        ["tox"] ["tox"] []
      = [InstallStep.reportAlreadyInstalled, InstallStep.cleanup] :=
  (internal_install_noop false c4desired c4current (Option.some "symlink")
    ["tox"] ["tox"] [] (by decide) rfl (by decide)).1

/-! ## Theorems: C5, C6, C7 (retention cleanup) -/

/-- keyInRemoved is false for a name outside the removed list. -/
theorem keyInRemoved_false {removed : List String} {s : String}
    (h : s ∉ removed) : keyInRemoved removed (Option.some s) = false := by
  cases hk : keyInRemoved removed (Option.some s)
  · rfl
  · exact absurd ((keyInRemoved_some removed s).mp hk) h

/-- C5: for a non-empty bucket keyed by a registered name that is not in
removed-entry-points: the sorted bucket holds exactly the bucket entries with
a newest entry first; when the newest entry is at or before the cutoff,
cleanup deletes every entry except the newest one; otherwise it deletes every
entry except the newest two. -/
theorem cleanup_not_removed_policy (inp : CleanupInput) (k : String)
    (top : Int × String) (rest : List (Int × String))
    (hmem : (Option.some k, top :: rest) ∈ Packager.sortedBuckets inp)
    (hnr : k ∉ inp.removedEntryPoints) :
    (∀ x ∈ top :: rest, x.1 ≤ top.1)
    ∧ (∀ x : Int × String, x ∈ top :: rest ↔
        x ∈ bucketEntries (cleanupKeys inp) inp.entries (Option.some k))
    ∧ (top.1 ≤ inp.cutoff →
        (Option.some k, rest) ∈ (Packager.cleanup inp).perKey)
    ∧ (inp.cutoff < top.1 →
        (Option.some k, rest.drop 1) ∈ (Packager.cleanup inp).perKey) := by
  obtain ⟨hk, hb⟩ := (sortedBuckets_mem inp _ _).mp hmem
  have hkr := keyInRemoved_false hnr
  refine ⟨?_, ?_, ?_, ?_⟩
  · intro x hx
    exact sortDesc_head_max _ top rest hb.symm x (hb ▸ hx)
  · intro x
    constructor
    · intro hx
      exact mem_sortDesc.mp (hb ▸ hx)
    · intro hx
      have hxs := mem_sortDesc.mpr hx
      rw [← hb] at hxs
      exact hxs
  · intro hcut
    have h := cleanup_perKey_mem inp (Option.some k) (top :: rest) hmem
    have he : (bucketOutcome inp.removedEntryPoints inp.cutoff (Option.some k)
        (top :: rest)).1 = rest := by
      unfold bucketOutcome
      rw [hkr]
      simp [hcut]
    rwa [he] at h
  · intro hcut
    have h := cleanup_perKey_mem inp (Option.some k) (top :: rest) hmem
    have he : (bucketOutcome inp.removedEntryPoints inp.cutoff (Option.some k)
        (top :: rest)).1 = rest.drop 1 := by
      unfold bucketOutcome
      rw [hkr]
      simp [not_le.mpr hcut]
    rwa [he] at h

/-- Concrete input for the C5 witness. -/
def c5inp : CleanupInput :=
  { pkgName := "tox", entryPoints := [], removedEntryPoints := [],
    entries := [("tox-1.0", 10), ("tox-2.0", 20), ("tox-3.0", 30)], cutoff := 100 }

/-- C5 witness: with an old newest entry, everything except the newest one is
deleted. -/
theorem cleanup_not_removed_policy_witness :
    (Option.some "tox", [((20 : Int), "tox-2.0"), ((10 : Int), "tox-1.0")])
      ∈ (Packager.cleanup c5inp).perKey :=
  (cleanup_not_removed_policy c5inp "tox" (30, "tox-3.0")
      [(20, "tox-2.0"), (10, "tox-1.0")] (by decide) (by decide)).2.2.1 (by decide)

/-- The rem_cleaned counter of cleanup as a countP over the keys. -/
theorem cleanup_rem_cleaned (inp : CleanupInput) :
    ((Packager.sortedBuckets inp).map
        (fun p => (bucketOutcome inp.removedEntryPoints inp.cutoff p.1 p.2).2)).sum
      = (cleanupKeys inp).countP
          (fun k => keyInRemoved inp.removedEntryPoints k
            && reclaimedB inp.cutoff
                (sortDesc (bucketEntries (cleanupKeys inp) inp.entries k))) := by
  unfold Packager.sortedBuckets
  rw [List.map_map]
  have hfun : ∀ k ∈ cleanupKeys inp,
      ((fun p : Option String × List (Int × String) =>
          (bucketOutcome inp.removedEntryPoints inp.cutoff p.1 p.2).2) ∘
        (fun k => (k, sortDesc (bucketEntries (cleanupKeys inp) inp.entries k)))) k
      = (fun k => if (keyInRemoved inp.removedEntryPoints k
            && reclaimedB inp.cutoff
                (sortDesc (bucketEntries (cleanupKeys inp) inp.entries k))) then
            (1 : Nat) else 0) k := by
    intro k _
    exact bucketOutcome_snd _ _ _ _
  rw [List.map_congr_left hfun]
  exact sum_map_ite_one _ _

/-- With a duplicate-free removed record, the record file is deleted exactly
when every removed name has a reclaimed bucket. -/
theorem cleanup_record_deleted_iff (inp : CleanupInput)
    (hnd : inp.removedEntryPoints.Nodup) :
    (Packager.cleanup inp).removedRecordDeleted = true ↔
      ∀ n ∈ inp.removedEntryPoints,
        reclaimedB inp.cutoff
          (sortDesc (bucketEntries (cleanupKeys inp) inp.entries (Option.some n)))
          = true := by
  have hrec : (Packager.cleanup inp).removedRecordDeleted
      = decide (inp.removedEntryPoints.length ≤
          ((Packager.sortedBuckets inp).map
            (fun p => (bucketOutcome inp.removedEntryPoints inp.cutoff p.1 p.2).2)).sum) := by
    unfold Packager.cleanup
    simp only [List.map_map]
    rfl
  rw [hrec, decide_eq_true_eq, cleanup_rem_cleaned, ← countP_keys_removed inp hnd]
  refine Iff.trans (countP_conj_ge_iff (cleanupKeys inp)
    (keyInRemoved inp.removedEntryPoints)
    (fun k => reclaimedB inp.cutoff
      (sortDesc (bucketEntries (cleanupKeys inp) inp.entries k)))) ?_
  constructor
  · intro h n hn
    refine h (Option.some n) ?_ ((keyInRemoved_some _ _).mpr hn)
    rw [mem_cleanupKeys]
    right; right
    rw [List.mem_map]
    exact ⟨n, List.mem_append_right _ hn, rfl⟩
  · intro h k hk hkp
    cases k with
    | none => exact absurd hkp (by simp [keyInRemoved])
    | some s => exact h s ((keyInRemoved_some _ _).mp hkp)

/-- C6: for a bucket keyed by a removed entry-point name: once the newest
entry is at or before the cutoff the whole bucket is deleted and counts as
reclaimed; while the newest is younger only the newest entry is kept; an
empty bucket counts as reclaimed; and the removed-entry-points record file is
deleted exactly when every removed name has a reclaimed bucket (its
membership is never edited piecemeal, only the whole file is dropped). -/
theorem cleanup_removed_policy (inp : CleanupInput)
    (hnd : inp.removedEntryPoints.Nodup) :
    (∀ (k : String) (top : Int × String) (rest : List (Int × String)),
        (Option.some k, top :: rest) ∈ Packager.sortedBuckets inp →
        k ∈ inp.removedEntryPoints →
        (top.1 ≤ inp.cutoff →
            (Option.some k, top :: rest) ∈ (Packager.cleanup inp).perKey
            ∧ reclaimedB inp.cutoff (top :: rest) = true)
        ∧ (inp.cutoff < top.1 →
            (Option.some k, rest) ∈ (Packager.cleanup inp).perKey
            ∧ reclaimedB inp.cutoff (top :: rest) = false))
    ∧ reclaimedB inp.cutoff [] = true
    ∧ ((Packager.cleanup inp).removedRecordDeleted = true ↔
        ∀ n ∈ inp.removedEntryPoints,
          reclaimedB inp.cutoff
            (sortDesc (bucketEntries (cleanupKeys inp) inp.entries (Option.some n)))
            = true) := by
  refine ⟨?_, rfl, cleanup_record_deleted_iff inp hnd⟩
  intro k top rest hmem hkrem
  have hkt : keyInRemoved inp.removedEntryPoints (Option.some k) = true :=
    (keyInRemoved_some _ _).mpr hkrem
  constructor
  · intro hcut
    have h := cleanup_perKey_mem inp (Option.some k) (top :: rest) hmem
    have he : (bucketOutcome inp.removedEntryPoints inp.cutoff (Option.some k)
        (top :: rest)).1 = top :: rest := by
      unfold bucketOutcome
      rw [hkt]
      simp [hcut]
    exact ⟨by rwa [he] at h, by simp [reclaimedB, hcut]⟩
  · intro hcut
    have h := cleanup_perKey_mem inp (Option.some k) (top :: rest) hmem
    have he : (bucketOutcome inp.removedEntryPoints inp.cutoff (Option.some k)
        (top :: rest)).1 = rest := by
      unfold bucketOutcome
      rw [hkt]
      simp [not_le.mpr hcut]
    exact ⟨by rwa [he] at h, by simp [reclaimedB, not_le.mpr hcut]⟩

/-- Concrete input for the C6 witness. -/
def c6inp : CleanupInput :=
  { pkgName := "tox", entryPoints := ["tox"], removedEntryPoints := ["baz"],
    entries := [("baz-1.0", 10), ("baz-2.0", 20), ("tox-3.0", 30)], cutoff := 100 }

/-- C6 witness: an old removed bucket is deleted wholesale and the record
file is dropped. -/
theorem cleanup_removed_policy_witness :
    (Option.some "baz", [((20 : Int), "baz-2.0"), ((10 : Int), "baz-1.0")])
      ∈ (Packager.cleanup c6inp).perKey
    ∧ (Packager.cleanup c6inp).removedRecordDeleted = true := by
  have h := cleanup_removed_policy c6inp (by decide)
  exact ⟨((h.1 "baz" (20, "baz-2.0") [(10, "baz-1.0")] (by decide) (by decide)).1
      (by decide)).1,
    h.2.2.mpr (by decide)⟩

/-- Input for the C7 counterexample: two entries that match no registered
name. -/
def c7inp : CleanupInput :=
  { pkgName := "pkg", entryPoints := [], removedEntryPoints := [],
    entries := [("aaa", 0), ("bbb", 1)], cutoff := 10 }

/-- C7 counterexample: the entry "aaa" matches no registered name, yet
cleanup deletes it: it is bucketed under the None key (the membership check
`target in prefixes` is vacuous because None is a key of the prefixes dict)
and the standard retention policy deletes everything but the newest entry. -/
theorem cleanup_unmatched_deleted_cex :
    longestMatchingName (cleanupKeys c7inp) "aaa" = Option.none
    ∧ (Option.none, [((0 : Int), "aaa")]) ∈ (Packager.cleanup c7inp).perKey :=
  ⟨by decide, by decide⟩

/-- C7 (amended): cleanup buckets each non-hidden entry of the storage folder
under the longest registered name (package name, entry-point name or removed
entry-point name) that is a literal string-prefix of the filename; but an
entry whose filename matches no registered name is NOT ignored: it is
bucketed under the vacuous None key, whose bucket is cleaned with the same
keep-newest-one-or-two policy as a regular bucket. -/
theorem cleanup_bucketing_spec (inp : CleanupInput) :
    (∀ (n : String) (text : String),
        longestMatchingName (cleanupKeys inp) text = Option.some n →
        Option.some n ∈ cleanupKeys inp ∧ n ≠ "" ∧ strStartsWith text n = true
        ∧ ∀ m, Option.some m ∈ cleanupKeys inp → m ≠ "" → strStartsWith text m = true →
            m.length ≤ n.length)
    ∧ (∀ e ∈ inp.entries, ∀ k : Option String, strStartsWith e.1 "." = false →
        ((e.2, e.1) ∈ bucketEntries (cleanupKeys inp) inp.entries k ↔
          longestMatchingName (cleanupKeys inp) e.1 = k))
    ∧ (∀ (top : Int × String) (rest : List (Int × String)),
        (Option.none, top :: rest) ∈ Packager.sortedBuckets inp →
        (top.1 ≤ inp.cutoff →
            (Option.none, rest) ∈ (Packager.cleanup inp).perKey)
        ∧ (inp.cutoff < top.1 →
            (Option.none, rest.drop 1) ∈ (Packager.cleanup inp).perKey)) := by
  refine ⟨fun n text => (longestMatchingName_spec (cleanupKeys inp) text).1 n, ?_, ?_⟩
  · intro e he k hdot
    unfold bucketEntries
    constructor
    · intro hx
      rcases List.mem_map.mp hx with ⟨e', he', heq⟩
      rcases List.mem_filter.mp he' with ⟨_, hp⟩
      have h1 : e'.1 = e.1 := congrArg Prod.snd heq
      rw [Bool.and_eq_true] at hp
      rw [← h1]
      exact beq_iff_eq.mp hp.2
    · intro hk
      refine List.mem_map.mpr ⟨e, ?_, rfl⟩
      refine List.mem_filter.mpr ⟨he, ?_⟩
      rw [hdot, hk]
      simp
  · intro top rest hmem
    have hkr : keyInRemoved inp.removedEntryPoints Option.none = false := rfl
    constructor
    · intro hcut
      have h := cleanup_perKey_mem inp Option.none (top :: rest) hmem
      have he : (bucketOutcome inp.removedEntryPoints inp.cutoff Option.none
          (top :: rest)).1 = rest := by
        unfold bucketOutcome
        rw [hkr]
        simp [hcut]
      rwa [he] at h
    · intro hcut
      have h := cleanup_perKey_mem inp Option.none (top :: rest) hmem
      have he : (bucketOutcome inp.removedEntryPoints inp.cutoff Option.none
          (top :: rest)).1 = rest.drop 1 := by
        unfold bucketOutcome
        rw [hkr]
        simp [not_le.mpr hcut]
      rwa [he] at h

end Pickley
